import Mathlib

/-!
# Huffman compression engine — verification development

Shallow embedding of the Huffman coding core of
`day05-image-compressor/script.js` (classes `HuffmanNode`, `MinHeap`,
`HuffmanCoding`), together with proofs and refutations of the stated
properties of the design document.

Modelling conventions:
* JS strings of input data are `List Char`; the encoded bit string is a
  `List Char` of `'0'`/`'1'` characters, exactly as the source builds it.
* A JS `Map` is an association list in insertion order; `Map.get` is
  `List.lookup` (first match — the source only ever stores distinct keys,
  where the two coincide), `Map.set` of a fresh key appends.
* The tree: every `HuffmanNode` the program constructs is either a leaf
  (`char` set, both children `null`) or an internal node with both
  children set (`buildHuffmanTree` always assigns both), so the node type
  is the two-constructor inductive below.  A `null` child access in
  `decode` — which in JS throws a `TypeError` — is modelled by the
  decoder returning `none`.
* `encoded += this.codes.get(char)` with a missing key coerces JS
  `undefined` to the text `"undefined"`; the model does the same.
* The `MinHeap` array is a `List HuffmanNode` with the index arithmetic
  of the source kept verbatim; out-of-range reads (which never occur on
  the guarded paths) are given a fixed junk value by `hget`.
* Mutable fields `this.root`, `this.codes`, `this.frequencies` of class
  `HuffmanCoding` are threaded as an explicit state record; `compress`
  returns the updated state next to its result object.  The
  `compressionRatio`/`spaceSaved` fields (display strings computed with
  floating point `toFixed`) are outside the model; `originalBits` and
  `compressedBits`, from which they are derived, are kept.
-/

/-- Tree node of the source's `class HuffmanNode`: a leaf carries a
character and its frequency; an internal node carries a frequency and two
children (the source's builder always sets both `left` and `right`). -/
inductive HuffmanNode where
  | leaf (char : Char) (frequency : Nat)
  | internal (frequency : Nat) (left : HuffmanNode) (right : HuffmanNode)
deriving DecidableEq, Repr

namespace HuffmanNode

/-- The `frequency` field. -/
def frequency : HuffmanNode → Nat
  | leaf _ f => f
  | internal f _ _ => f

/-- `isLeaf()`: both children are `null`. -/
def isLeaf : HuffmanNode → Bool
  | leaf _ _ => true
  | internal _ _ _ => false

/-- The `left` field, `none` standing for JS `null`. -/
def leftChild : HuffmanNode → Option HuffmanNode
  | leaf _ _ => none
  | internal _ l _ => some l

/-- The `right` field, `none` standing for JS `null`. -/
def rightChild : HuffmanNode → Option HuffmanNode
  | leaf _ _ => none
  | internal _ _ r => some r

/-- The `char` field of a leaf (`null` on internal nodes; only read by
`decode` under an `isLeaf()` guard, so a junk value is safe there). -/
def charOf : HuffmanNode → Char
  | leaf c _ => c
  | internal _ _ _ => ' '

end HuffmanNode

/-- One step of `buildFrequencyMap`'s loop:
`this.frequencies.set(char, (this.frequencies.get(char) || 0) + 1)`.
A present key is bumped in place (JS `Map.set` keeps its position), a
fresh key is appended. -/
def bumpFreq : List (Char × Nat) → Char → List (Char × Nat)
  | [], c => [(c, 1)]
  | (k, v) :: rest, c =>
    if k = c then (k, v + 1) :: rest else (k, v) :: bumpFreq rest c

/-- `buildFrequencyMap(data)`: count character frequencies, in first
occurrence order (JS `Map` iteration order). -/
def buildFrequencyMap (data : List Char) : List (Char × Nat) :=
  data.foldl bumpFreq []

namespace MinHeap

/-- Junk value returned by reads outside the array; every read the
source performs is guarded to be in bounds. -/
def junk : HuffmanNode := HuffmanNode.leaf ' ' 0

/-- `this.heap[i]`. -/
def hget (heap : List HuffmanNode) (i : Nat) : HuffmanNode :=
  heap.getD i junk

/-- `[this.heap[i], this.heap[j]] = [this.heap[j], this.heap[i]]`. -/
def swapAt (heap : List HuffmanNode) (i j : Nat) : List HuffmanNode :=
  (heap.set i (hget heap j)).set j (hget heap i)

/-- `bubbleUp(index)`: swap with the parent while strictly smaller.
The `while (index > 0)` loop strictly decreases `index`, so running the
body at most `fuel := index` times (as `insert` passes) reaches the
loop's fixpoint; the `fuel = 0` branch is unreachable from the call
sites because the loop is already finished when `index = 0`. -/
def bubbleUp : Nat → List HuffmanNode → Nat → List HuffmanNode
  | 0, heap, _ => heap
  | fuel + 1, heap, index =>
    if 0 < index then
      if (hget heap index).frequency ≥
          (hget heap ((index - 1) / 2)).frequency then
        heap
      else
        bubbleUp fuel (swapAt heap index ((index - 1) / 2)) ((index - 1) / 2)
    else heap

/-- The `smallest` index after `bubbleDown`'s left-child comparison:
the left child `2*index+1` if in range and strictly smaller, else
`index`. -/
def s1of (heap : List HuffmanNode) (index : Nat) : Nat :=
  if 2 * index + 1 < heap.length ∧
      (hget heap (2 * index + 1)).frequency <
        (hget heap index).frequency then
    2 * index + 1
  else index

/-- The `smallest` index computed by one full pass of `bubbleDown`'s
loop body: `s1of`, then the right child `2*index+2` if in range and
smaller still. -/
def smallestOf (heap : List HuffmanNode) (index : Nat) : Nat :=
  if 2 * index + 2 < heap.length ∧
      (hget heap (2 * index + 2)).frequency <
        (hget heap (s1of heap index)).frequency then
    2 * index + 2
  else s1of heap index

/-- `bubbleDown(index)`: swap with the smaller child while one is
strictly smaller.  The `while (true)` loop strictly increases the cursor
(`smallest > index` on every swap) while it stays below the array
length, so running the body at most `fuel := heap.length` times (as
`extractMin` passes) reaches the loop's fixpoint. -/
def bubbleDown : Nat → List HuffmanNode → Nat → List HuffmanNode
  | 0, heap, _ => heap
  | fuel + 1, heap, index =>
    if smallestOf heap index = index then heap
    else bubbleDown fuel (swapAt heap index (smallestOf heap index))
      (smallestOf heap index)

/-- `insert(node)`: push then bubble up from the last slot. -/
def insert (heap : List HuffmanNode) (node : HuffmanNode) :
    List HuffmanNode :=
  bubbleUp heap.length (heap ++ [node]) heap.length

/-- `extractMin()`: `null` on an empty heap; pop directly on a singleton;
otherwise move the popped last element to the root and bubble it down. -/
def extractMin (heap : List HuffmanNode) :
    Option HuffmanNode × List HuffmanNode :=
  if heap.length = 0 then (none, heap)
  else if heap.length = 1 then (some (hget heap 0), [])
  else
    (some (hget heap 0),
      bubbleDown ((heap.dropLast).set 0
        (hget heap (heap.length - 1))).length
        ((heap.dropLast).set 0 (hget heap (heap.length - 1))) 0)

end MinHeap

/-- The body of `buildHuffmanTree`'s `while (heap.size() > 1)` loop,
run at most `fuel` times: extract the two minima, merge them under a
fresh internal node whose frequency is the sum, insert it back.  One
iteration shrinks the heap by one, so `fuel := heap.length` (as
`buildHuffmanTree` passes) always reaches the fixpoint; this is proved
below (`buildLoop_spec`). -/
def buildLoop : Nat → List HuffmanNode → List HuffmanNode
  | 0, heap => heap
  | fuel + 1, heap =>
    if 1 < heap.length then
      match MinHeap.extractMin heap with
      | (none, _) => heap
      | (some left, h₁) =>
        match MinHeap.extractMin h₁ with
        | (none, _) => heap
        | (some right, h₂) =>
          buildLoop fuel (MinHeap.insert h₂
            (HuffmanNode.internal (left.frequency + right.frequency)
              left right))
    else heap

/-- `buildHuffmanTree()`: insert one leaf per frequency entry, run the
merge loop, extract the final root (`null`, i.e. `none`, when the
frequency map is empty). -/
def buildHuffmanTree (frequencies : List (Char × Nat)) :
    Option HuffmanNode :=
  let heap := frequencies.foldl
    (fun h cf => MinHeap.insert h (HuffmanNode.leaf cf.1 cf.2)) []
  (MinHeap.extractMin (buildLoop heap.length heap)).1

/-- `generateCodes(node, code)` on a non-null node: at a leaf record
`code || '0'` (the 1-bit string `"0"` when the accumulated code is
empty), otherwise recurse left with `code + '0'` and right with
`code + '1'`.  The resulting insertion-order `Map` is the association
list of entries in traversal order (all leaf characters of a built tree
are distinct). -/
def generateCodes : HuffmanNode → List Char → List (Char × List Char)
  | HuffmanNode.leaf c _, code =>
    [(c, if code.isEmpty then ['0'] else code)]
  | HuffmanNode.internal _ l r, code =>
    generateCodes l (code ++ ['0']) ++ generateCodes r (code ++ ['1'])

/-- The top-level `generateCodes()` call of `compress`, starting from
`this.root` with the empty code (`if (!node) return;` yields an empty
table on a null root). -/
def generateCodesTop : Option HuffmanNode → List (Char × List Char)
  | none => []
  | some root => generateCodes root []

/-- `encode(data)`: `encoded += this.codes.get(char)` for each character
in order.  When the table has no entry, JS appends the coercion of
`undefined` — the literal text `"undefined"`. -/
def encode (codes : List (Char × List Char)) (data : List Char) :
    List Char :=
  data.foldl
    (fun encoded char =>
      encoded ++ ((List.lookup char codes).getD "undefined".toList)) []

/-- `decode(encoded)`'s loop: move to the left child on `'0'`, to the
right child otherwise; on landing on a leaf emit its character and reset
the cursor to the root; when the bits run out return what was decoded.
Stepping to a `null` child throws a `TypeError` in JS — modelled as
`none`. -/
def decodeAux (root : HuffmanNode) :
    List Char → HuffmanNode → Option (List Char)
  | [], _ => some []
  | bit :: rest, current =>
    match (if bit = '0' then current.leftChild else current.rightChild) with
    | none => none
    | some next =>
      if next.isLeaf then
        (decodeAux root rest root).map (fun d => next.charOf :: d)
      else
        decodeAux root rest next

/-- `decode(encoded)` against tree `root`. -/
def decode (root : HuffmanNode) (encoded : List Char) :
    Option (List Char) :=
  decodeAux root encoded root

/-- The mutable fields of `class HuffmanCoding`, threaded explicitly. -/
structure HuffmanCoding where
  root : Option HuffmanNode
  codes : List (Char × List Char)
  frequencies : List (Char × Nat)
deriving DecidableEq, Repr

/-- The freshly constructed `new HuffmanCoding()`. -/
def HuffmanCoding.init : HuffmanCoding :=
  { root := none, codes := [], frequencies := [] }

/-- The success object `compress` returns (`compressionRatio` /
`spaceSaved`, display strings computed from `originalBits` and
`compressedBits` with floating point, are outside the model). -/
structure CompressResult where
  original : List Char
  encoded : List Char
  originalBits : Nat
  compressedBits : Nat
  frequencies : List (Char × Nat)
  codes : List (Char × List Char)
  tree : Option HuffmanNode
deriving DecidableEq, Repr

/-- `compress(data)`: reject empty input with the failure object
`{success: false, error: 'No data to compress'}`, else rebuild the
frequency map, tree and code table from scratch, encode, and return the
statistics object (maps are copied out with `new Map(...)`, modelled as
the same immutable value). -/
def compress (st : HuffmanCoding) (data : List Char) :
    HuffmanCoding × Except String CompressResult :=
  if data.length = 0 then
    (st, Except.error "No data to compress")
  else
    let frequencies := buildFrequencyMap data
    let root := buildHuffmanTree frequencies
    let codes := generateCodesTop root
    let encoded := encode codes data
    ({ root := root, codes := codes, frequencies := frequencies },
      Except.ok
        { original := data
          encoded := encoded
          originalBits := data.length * 8
          compressedBits := encoded.length
          frequencies := frequencies
          codes := codes
          tree := root })

/-- The result object of `compress` run on a fresh `HuffmanCoding`,
`none` on the error path. -/
def compressResult (data : List Char) : Option CompressResult :=
  ((compress HuffmanCoding.init data).2).toOption

/-- The round trip of the design document: decode the encoded bits of
`compress(data)` against the tree of that same call (`none` when
`compress` failed, the tree is absent, or `decode` crashed). -/
def roundTrip (data : List Char) : Option (List Char) :=
  match compressResult data with
  | none => none
  | some r =>
    match r.tree with
    | none => none
    | some t => decode t r.encoded

/-! ## Specification-side measures -/

/-- Follow a bit string from a node: `some c` when it ends exactly at a
leaf carrying `c`, `none` when it stops early or runs past a leaf. -/
def pathTo : HuffmanNode → List Char → Option Char
  | HuffmanNode.leaf c _, [] => some c
  | HuffmanNode.leaf _ _, _ :: _ => none
  | HuffmanNode.internal _ _ _, [] => none
  | HuffmanNode.internal _ l r, bit :: rest =>
    pathTo (if bit = '0' then l else r) rest

/-- Whether `decode`'s traversal of `bits` from `current` (resetting to
`root` at each emitted leaf) ever steps to a missing child — the exact
crash condition of the source's `decode`. -/
def hitsMissingChild (root : HuffmanNode) :
    List Char → HuffmanNode → Bool
  | [], _ => false
  | bit :: rest, current =>
    match (if bit = '0' then current.leftChild else current.rightChild) with
    | none => true
    | some next =>
      if next.isLeaf then hitsMissingChild root rest root
      else hitsMissingChild root rest next

/-- Number of leaves. -/
def leafCount : HuffmanNode → Nat
  | HuffmanNode.leaf _ _ => 1
  | HuffmanNode.internal _ l r => leafCount l + leafCount r

/-- Number of internal nodes. -/
def internalCount : HuffmanNode → Nat
  | HuffmanNode.leaf _ _ => 0
  | HuffmanNode.internal _ l r => internalCount l + internalCount r + 1

/-- Sum of the leaf weights. -/
def leafWeightSum : HuffmanNode → Nat
  | HuffmanNode.leaf _ f => f
  | HuffmanNode.internal _ l r => leafWeightSum l + leafWeightSum r

/-- The multiset of `(character, weight)` leaf entries of a tree. -/
def leafEntries : HuffmanNode → Multiset (Char × Nat)
  | HuffmanNode.leaf c f => {(c, f)}
  | HuffmanNode.internal _ l r => leafEntries l + leafEntries r

/-- Weight bookkeeping invariant: every internal node's frequency is the
sum of its two children's frequencies. -/
def wfWeights : HuffmanNode → Prop
  | HuffmanNode.leaf _ _ => True
  | HuffmanNode.internal f l r =>
    f = l.frequency + r.frequency ∧ wfWeights l ∧ wfWeights r

/-- Boolean twin of `wfWeights`, for evaluation. -/
def wfWeightsB : HuffmanNode → Bool
  | HuffmanNode.leaf _ _ => true
  | HuffmanNode.internal f l r =>
    decide (f = l.frequency + r.frequency) && wfWeightsB l && wfWeightsB r

instance : DecidablePred wfWeights := fun t =>
  decidable_of_iff (wfWeightsB t = true) (by
    induction t with
    | leaf c f => simp [wfWeightsB, wfWeights]
    | internal f l r ihl ihr =>
      simp [wfWeightsB, wfWeights, ihl, ihr, and_assoc])

/-- The combined leaf-entry multiset of every tree on the heap. -/
def heapEntries (heap : List HuffmanNode) : Multiset (Char × Nat) :=
  (heap.map leafEntries).foldr (· + ·) 0

/-- The heap-order invariant exactly as the `MinHeap` array satisfies
it: each element is `≤` its children at indices `2*i+1` and `2*i+2`. -/
def IsHeap (heap : List HuffmanNode) : Prop :=
  ∀ i, i < heap.length →
    (2 * i + 1 < heap.length →
      (MinHeap.hget heap i).frequency ≤
        (MinHeap.hget heap (2 * i + 1)).frequency) ∧
    (2 * i + 2 < heap.length →
      (MinHeap.hget heap i).frequency ≤
        (MinHeap.hget heap (2 * i + 2)).frequency)

instance (heap : List HuffmanNode) : Decidable (IsHeap heap) :=
  Nat.decidableBallLT heap.length _

/-- Parent-form restatement of the heap order: every non-root element is
`≥` its parent at `(c-1)/2`.  Equivalent to `IsHeap`
(`heapProp_iff_isHeap`). -/
def HeapProp (heap : List HuffmanNode) : Prop :=
  ∀ c, 0 < c → c < heap.length →
    (MinHeap.hget heap ((c - 1) / 2)).frequency ≤
      (MinHeap.hget heap c).frequency

/-- Precondition of `bubbleUp` at cursor `i`: the heap order holds
everywhere except possibly on the edge into `i`, and `i`'s own parent
already bounds `i`'s children (vacuous for the freshly pushed last slot,
which has no children). -/
def UpOK (heap : List HuffmanNode) (i : Nat) : Prop :=
  (∀ c, 0 < c → c < heap.length → c ≠ i →
    (MinHeap.hget heap ((c - 1) / 2)).frequency ≤
      (MinHeap.hget heap c).frequency) ∧
  (∀ c, c < heap.length → (c - 1) / 2 = i → 0 < i →
    (MinHeap.hget heap ((i - 1) / 2)).frequency ≤
      (MinHeap.hget heap c).frequency)

/-- Precondition of `bubbleDown` at cursor `i`: the heap order holds on
every edge except possibly those out of `i`, and `i`'s parent already
bounds `i`'s children (vacuous at the root). -/
def DownOK (heap : List HuffmanNode) (i : Nat) : Prop :=
  (∀ c, 0 < c → c < heap.length → (c - 1) / 2 ≠ i →
    (MinHeap.hget heap ((c - 1) / 2)).frequency ≤
      (MinHeap.hget heap c).frequency) ∧
  (∀ c, c < heap.length → (c - 1) / 2 = i → 0 < i →
    (MinHeap.hget heap ((i - 1) / 2)).frequency ≤
      (MinHeap.hget heap c).frequency)

/-- The leaf characters of a tree in left-to-right traversal order —
exactly the key set of `generateCodes`. -/
def leafCharsList : HuffmanNode → List Char
  | HuffmanNode.leaf c _ => [c]
  | HuffmanNode.internal _ l r => leafCharsList l ++ leafCharsList r

/-! ## Array-cell lemmas for the heap embedding -/

namespace MinHeap

theorem hget_set_self (heap : List HuffmanNode) (i : Nat) (a : HuffmanNode)
    (h : i < heap.length) : hget (heap.set i a) i = a := by
  rw [hget, List.getD_eq_getElem?_getD, List.getElem?_set_eq_of_lt a h]
  rfl

theorem hget_set_ne (heap : List HuffmanNode) (i j : Nat) (a : HuffmanNode)
    (h : i ≠ j) : hget (heap.set i a) j = hget heap j := by
  rw [hget, hget, List.getD_eq_getElem?_getD, List.getD_eq_getElem?_getD,
    List.getElem?_set_ne h]

theorem swapAt_length (heap : List HuffmanNode) (i j : Nat) :
    (swapAt heap i j).length = heap.length := by
  simp [swapAt]

theorem hget_swapAt_fst (heap : List HuffmanNode) (i j : Nat)
    (hi : i < heap.length) (hj : j < heap.length) :
    hget (swapAt heap i j) j = hget heap i := by
  rw [swapAt, hget_set_self]
  simpa using hj

theorem hget_swapAt_snd (heap : List HuffmanNode) (i j : Nat)
    (hi : i < heap.length) (hne : i ≠ j) :
    hget (swapAt heap i j) i = hget heap j := by
  rw [swapAt, hget_set_ne _ _ _ _ (fun h => hne h.symm), hget_set_self _ _ _ hi]

theorem hget_swapAt_other (heap : List HuffmanNode) (i j x : Nat)
    (hxi : x ≠ i) (hxj : x ≠ j) :
    hget (swapAt heap i j) x = hget heap x := by
  rw [swapAt, hget_set_ne _ _ _ _ (fun h => hxj h.symm),
    hget_set_ne _ _ _ _ (fun h => hxi h.symm)]

theorem hget_cons_set_perm (l : List HuffmanNode) (k : Nat)
    (x : HuffmanNode) (h : k < l.length) :
    List.Perm (hget l k :: l.set k x) (x :: l) := by
  induction l generalizing k with
  | nil => simp at h
  | cons y ys ih =>
    cases k with
    | zero => simpa using List.Perm.swap x y ys
    | succ k =>
      have hk : k < ys.length := by simpa using h
      have step1 : List.Perm (hget (y :: ys) (k + 1) :: (y :: ys).set (k + 1) x)
          (y :: hget ys k :: ys.set k x) := List.Perm.swap _ _ _
      exact step1.trans ((List.Perm.cons y (ih k hk)).trans
        (List.Perm.swap _ _ _))

theorem swapAt_perm (heap : List HuffmanNode) (i j : Nat)
    (hi : i < heap.length) (hj : j < heap.length) :
    List.Perm (swapAt heap i j) heap := by
  by_cases hij : i = j
  · subst hij
    have h₁ := hget_cons_set_perm (heap.set i (hget heap i)) i
      (hget heap i) (by simpa using hi)
    have h₂ := hget_cons_set_perm heap i (hget heap i) hi
    rw [hget_set_self _ _ _ hi] at h₁
    exact (List.perm_cons _).mp (h₁.trans h₂)
  · have h₁ := hget_cons_set_perm (heap.set i (hget heap j)) j
      (hget heap i) (by simpa using hj)
    rw [hget_set_ne _ _ _ _ hij] at h₁
    have h₂ := hget_cons_set_perm heap i (hget heap j) hi
    exact (List.perm_cons _).mp (h₁.trans h₂)

theorem smallestOf_bounds (heap : List HuffmanNode) (index : Nat)
    (h : smallestOf heap index ≠ index) :
    index < smallestOf heap index ∧ smallestOf heap index < heap.length := by
  by_cases h2 : 2 * index + 2 < heap.length ∧
      (hget heap (2 * index + 2)).frequency <
        (hget heap (s1of heap index)).frequency
  · have : smallestOf heap index = 2 * index + 2 := by
      simp only [smallestOf, if_pos h2]
    rw [this]
    exact ⟨by omega, h2.1⟩
  · have hms : smallestOf heap index = s1of heap index := by
      simp only [smallestOf, if_neg h2]
    rw [hms] at h ⊢
    by_cases h1 : 2 * index + 1 < heap.length ∧
        (hget heap (2 * index + 1)).frequency <
          (hget heap index).frequency
    · have : s1of heap index = 2 * index + 1 := by
        simp only [s1of, if_pos h1]
      rw [this]
      exact ⟨by omega, h1.1⟩
    · exact absurd (by simp only [s1of, if_neg h1]) h

theorem bubbleUp_length : ∀ (fuel : Nat) (heap : List HuffmanNode)
    (i : Nat), (bubbleUp fuel heap i).length = heap.length := by
  intro fuel
  induction fuel with
  | zero => intro heap i; rfl
  | succ n ih =>
    intro heap i
    rw [bubbleUp]
    split
    · split
      · rfl
      · rw [ih, swapAt_length]
    · rfl

theorem bubbleUp_perm : ∀ (fuel : Nat) (heap : List HuffmanNode)
    (i : Nat), i < heap.length → List.Perm (bubbleUp fuel heap i) heap := by
  intro fuel
  induction fuel with
  | zero => intro heap i _; exact List.Perm.refl heap
  | succ n ih =>
    intro heap i hi
    rw [bubbleUp]
    split
    · rename_i hpos
      split
      · exact List.Perm.refl heap
      · have hp : (i - 1) / 2 < i := by omega
        exact (ih (swapAt heap i ((i - 1) / 2)) ((i - 1) / 2)
            (by rw [swapAt_length]; omega)).trans
          (swapAt_perm heap i ((i - 1) / 2) hi (by omega))
    · exact List.Perm.refl heap

theorem smallestOf_of_le (heap : List HuffmanNode) (index : Nat)
    (h : heap.length ≤ index) : smallestOf heap index = index := by
  have h1 : s1of heap index = index := by
    rw [s1of, if_neg]
    intro hc
    omega
  rw [smallestOf, h1, if_neg]
  intro hc
  omega

theorem bubbleDown_length : ∀ (fuel : Nat) (heap : List HuffmanNode)
    (i : Nat), (bubbleDown fuel heap i).length = heap.length := by
  intro fuel
  induction fuel with
  | zero => intro heap i; rfl
  | succ n ih =>
    intro heap i
    rw [bubbleDown]
    split
    · rfl
    · rw [ih, swapAt_length]

theorem bubbleDown_perm : ∀ (fuel : Nat) (heap : List HuffmanNode)
    (i : Nat), List.Perm (bubbleDown fuel heap i) heap := by
  intro fuel
  induction fuel with
  | zero => intro heap i; exact List.Perm.refl heap
  | succ n ih =>
    intro heap i
    rw [bubbleDown]
    split
    · exact List.Perm.refl heap
    · rename_i hne
      have hb := smallestOf_bounds heap i hne
      exact (ih _ _).trans
        (swapAt_perm heap i (smallestOf heap i) (by omega) hb.2)

theorem insert_length (heap : List HuffmanNode) (node : HuffmanNode) :
    (insert heap node).length = heap.length + 1 := by
  rw [insert, bubbleUp_length]
  simp

theorem insert_perm (heap : List HuffmanNode) (node : HuffmanNode) :
    List.Perm (insert heap node) (node :: heap) := by
  exact (bubbleUp_perm heap.length (heap ++ [node]) heap.length
      (by simp)).trans
    (List.perm_append_singleton node heap)

theorem extractMin_empty : extractMin [] = (none, []) := rfl

theorem hget_last (l : List HuffmanNode) (hne : l ≠ []) :
    hget l (l.length - 1) = l.getLast hne := by
  have hpos : 0 < l.length := List.length_pos.mpr hne
  rw [hget, List.getD_eq_getElem?_getD,
    List.getElem?_eq_getElem (by omega), List.getLast_eq_getElem]
  rfl

theorem extractMin_spec (heap : List HuffmanNode) (h : heap ≠ []) :
    ∃ h', extractMin heap = (some (hget heap 0), h') ∧
      h'.length = heap.length - 1 ∧
      List.Perm heap (hget heap 0 :: h') := by
  cases heap with
  | nil => exact absurd rfl h
  | cons x xs =>
    cases xs with
    | nil => exact ⟨[], rfl, rfl, List.Perm.refl _⟩
    | cons y ys =>
      have hxs : (y :: ys : List HuffmanNode) ≠ [] := by simp
      have hlast : hget (x :: y :: ys) ((x :: y :: ys).length - 1) =
          (y :: ys).getLast hxs := by
        rw [hget_last (x :: y :: ys) (by simp)]
        simp [List.getLast_cons]
      have hset : ((x :: y :: ys).dropLast).set 0
          (hget (x :: y :: ys) ((x :: y :: ys).length - 1)) =
          (y :: ys).getLast hxs :: (y :: ys).dropLast := by
        rw [hlast]
        rfl
      refine ⟨bubbleDown (((x :: y :: ys).dropLast).set 0
        (hget (x :: y :: ys) ((x :: y :: ys).length - 1))).length
        (((x :: y :: ys).dropLast).set 0
          (hget (x :: y :: ys) ((x :: y :: ys).length - 1))) 0, ?_, ?_, ?_⟩
      · rw [extractMin, if_neg (by simp), if_neg (by simp)]
      · rw [bubbleDown_length]
        simp
      · refine List.Perm.cons x ?_
        have hperm := bubbleDown_perm
          ((((x :: y :: ys).dropLast).set 0
            (hget (x :: y :: ys) ((x :: y :: ys).length - 1))).length)
          (((x :: y :: ys).dropLast).set 0
            (hget (x :: y :: ys) ((x :: y :: ys).length - 1))) 0
        refine List.Perm.symm ((hperm.trans ?_))
        rw [hset]
        refine List.Perm.symm ?_
        conv_lhs => rw [← List.dropLast_append_getLast hxs]
        exact List.perm_append_singleton _ _

end MinHeap

/-! ## Heap-order invariant -/

section HeapOrder

open MinHeap

theorem hget_eq_getElem (l : List HuffmanNode) (j : Nat) (hj : j < l.length) :
    hget l j = l[j] := by
  rw [hget, List.getD_eq_getElem?_getD, List.getElem?_eq_getElem hj]
  rfl

theorem hget_append_left (l : List HuffmanNode) (t : HuffmanNode) (x : Nat)
    (hx : x < l.length) : hget (l ++ [t]) x = hget l x := by
  rw [hget, hget, List.getD_eq_getElem?_getD, List.getD_eq_getElem?_getD,
    List.getElem?_append, if_pos hx]

theorem hget_dropLast (l : List HuffmanNode) (x : Nat)
    (hx : x < l.length - 1) : hget l.dropLast x = hget l x := by
  rw [hget, hget, List.getD_eq_getElem?_getD, List.getD_eq_getElem?_getD,
    List.getElem?_dropLast, if_pos hx]

theorem heapProp_iff_isHeap (heap : List HuffmanNode) :
    HeapProp heap ↔ IsHeap heap := by
  constructor
  · intro hp i hi
    refine ⟨fun h1 => ?_, fun h2 => ?_⟩
    · have h := hp (2 * i + 1) (by omega) h1
      have he : (2 * i + 1 - 1) / 2 = i := by omega
      rwa [he] at h
    · have h := hp (2 * i + 2) (by omega) h2
      have he : (2 * i + 2 - 1) / 2 = i := by omega
      rwa [he] at h
  · intro hh c hc hclen
    have hplen : (c - 1) / 2 < heap.length := by omega
    rcases (by omega : c = 2 * ((c - 1) / 2) + 1 ∨
        c = 2 * ((c - 1) / 2) + 2) with he | he
    · have h := (hh ((c - 1) / 2) hplen).1 (by omega)
      rwa [← he] at h
    · have h := (hh ((c - 1) / 2) hplen).2 (by omega)
      rwa [← he] at h

theorem isHeap_root_min (heap : List HuffmanNode) (hh : IsHeap heap) :
    ∀ j, j < heap.length →
      (hget heap 0).frequency ≤ (hget heap j).frequency := by
  intro j
  induction j using Nat.strong_induction_on with
  | _ j ih =>
    intro hj
    cases Nat.eq_zero_or_pos j with
    | inl h0 => subst h0; exact Nat.le_refl _
    | inr hpos =>
      have hp := ((heapProp_iff_isHeap heap).mpr hh) j hpos hj
      exact Nat.le_trans (ih ((j - 1) / 2) (by omega) (by omega)) hp

theorem bubbleUp_UpOK : ∀ (fuel i : Nat) (heap : List HuffmanNode),
    i ≤ fuel → i < heap.length → UpOK heap i →
    HeapProp (bubbleUp fuel heap i) := by
  intro fuel
  induction fuel with
  | zero =>
    intro i heap hif hi hok
    show HeapProp heap
    intro c hc hclen
    exact hok.1 c hc hclen (by omega)
  | succ n ih =>
    intro i heap hif hi hok
    rw [bubbleUp]
    split
    · rename_i hpos
      split
      · rename_i hbreak
        intro c hc hclen
        by_cases hci : c = i
        · subst hci
          exact hbreak
        · exact hok.1 c hc hclen hci
      · rename_i hgt
        have hlt : (hget heap i).frequency <
            (hget heap ((i - 1) / 2)).frequency := by omega
        have hplt : (i - 1) / 2 < i := by omega
        have hplen : (i - 1) / 2 < heap.length := by omega
        have hnep : i ≠ (i - 1) / 2 := by omega
        have e1 : hget (swapAt heap i ((i - 1) / 2)) i =
            hget heap ((i - 1) / 2) := hget_swapAt_snd heap i _ hi hnep
        have e2 : hget (swapAt heap i ((i - 1) / 2)) ((i - 1) / 2) =
            hget heap i := hget_swapAt_fst heap i _ hi hplen
        have e3 : ∀ x, x ≠ i → x ≠ (i - 1) / 2 →
            hget (swapAt heap i ((i - 1) / 2)) x = hget heap x :=
          fun x hxi hxp => hget_swapAt_other heap i _ x hxi hxp
        refine ih ((i - 1) / 2) (swapAt heap i ((i - 1) / 2))
          (by omega) (by rw [swapAt_length]; omega) ⟨?_, ?_⟩
        · intro c hc hclen' hcp
          rw [swapAt_length] at hclen'
          by_cases hci : c = i
          · subst hci
            rw [e1, e2]
            omega
          · by_cases hpari : (c - 1) / 2 = i
            · rw [e3 c hci hcp, hpari, e1]
              exact hok.2 c hclen' hpari hpos
            · by_cases hparp : (c - 1) / 2 = (i - 1) / 2
              · rw [e3 c hci hcp, hparp, e2]
                have h := hok.1 c hc hclen' hci
                rw [hparp] at h
                omega
              · rw [e3 c hci hcp, e3 _ hpari hparp]
                exact hok.1 c hc hclen' hci
        · intro c hclen' hparc hppos
          rw [swapAt_length] at hclen'
          have hgp : ((i - 1) / 2 - 1) / 2 ≠ i := by omega
          have hgp2 : ((i - 1) / 2 - 1) / 2 ≠ (i - 1) / 2 := by omega
          rw [e3 _ hgp hgp2]
          have hstep : (hget heap (((i - 1) / 2 - 1) / 2)).frequency ≤
              (hget heap ((i - 1) / 2)).frequency :=
            hok.1 ((i - 1) / 2) hppos hplen (by omega)
          by_cases hci : c = i
          · subst hci
            rw [e1]
            exact hstep
          · have hcnep : c ≠ (i - 1) / 2 := by omega
            rw [e3 c hci hcnep]
            have hc0 : 0 < c := by omega
            have h := hok.1 c hc0 hclen' hci
            rw [hparc] at h
            exact Nat.le_trans hstep h
    · rename_i hnpos
      intro c hc hclen
      have hci : c ≠ i := by omega
      exact hok.1 c hc hclen hci

theorem insert_IsHeap (heap : List HuffmanNode) (t : HuffmanNode)
    (hh : IsHeap heap) : IsHeap (MinHeap.insert heap t) := by
  rw [← heapProp_iff_isHeap]
  unfold MinHeap.insert
  refine bubbleUp_UpOK heap.length heap.length (heap ++ [t])
    (Nat.le_refl _) (by simp) ⟨?_, ?_⟩
  · intro c hc hclen hci
    have hclen' : c < heap.length := by
      simp only [List.length_append, List.length_cons, List.length_nil] at hclen
      omega
    have hplen : (c - 1) / 2 < heap.length := by omega
    rw [hget_append_left _ _ _ hclen', hget_append_left _ _ _ hplen]
    exact ((heapProp_iff_isHeap heap).mpr hh) c hc hclen'
  · intro c hclen hparc hpos
    simp only [List.length_append, List.length_cons, List.length_nil] at hclen
    omega

theorem smallestOf_facts (heap : List HuffmanNode) (i : Nat)
    (h : smallestOf heap i ≠ i) :
    (smallestOf heap i = 2 * i + 1 ∨ smallestOf heap i = 2 * i + 2) ∧
    (hget heap (smallestOf heap i)).frequency <
      (hget heap i).frequency ∧
    (2 * i + 1 < heap.length →
      (hget heap (smallestOf heap i)).frequency ≤
        (hget heap (2 * i + 1)).frequency) ∧
    (2 * i + 2 < heap.length →
      (hget heap (smallestOf heap i)).frequency ≤
        (hget heap (2 * i + 2)).frequency) := by
  by_cases h2 : 2 * i + 2 < heap.length ∧
      (hget heap (2 * i + 2)).frequency <
        (hget heap (s1of heap i)).frequency
  · have hs : smallestOf heap i = 2 * i + 2 := by
      simp only [smallestOf, if_pos h2]
    rw [hs]
    by_cases h1 : 2 * i + 1 < heap.length ∧
        (hget heap (2 * i + 1)).frequency < (hget heap i).frequency
    · have hs1 : s1of heap i = 2 * i + 1 := by
        simp only [s1of, if_pos h1]
      rw [hs1] at h2
      exact ⟨Or.inr rfl, by omega, fun _ => by omega, fun _ => Nat.le_refl _⟩
    · have hs1 : s1of heap i = i := by
        simp only [s1of, if_neg h1]
      rw [hs1] at h2
      refine ⟨Or.inr rfl, h2.2, fun hlt1 => ?_, fun _ => Nat.le_refl _⟩
      rw [not_and] at h1
      have h3 := h1 hlt1
      omega
  · have hs : smallestOf heap i = s1of heap i := by
      simp only [smallestOf, if_neg h2]
    rw [hs] at h ⊢
    by_cases h1 : 2 * i + 1 < heap.length ∧
        (hget heap (2 * i + 1)).frequency < (hget heap i).frequency
    · have hs1 : s1of heap i = 2 * i + 1 := by
        simp only [s1of, if_pos h1]
      rw [hs1] at h2 ⊢
      refine ⟨Or.inl rfl, h1.2, fun _ => Nat.le_refl _, fun hlt2 => ?_⟩
      rw [not_and] at h2
      have h3 := h2 hlt2
      omega
    · exact absurd (by simp only [s1of, if_neg h1]) h

theorem bubbleDown_DownOK : ∀ (fuel : Nat) (heap : List HuffmanNode)
    (i : Nat), heap.length - i ≤ fuel → DownOK heap i →
    HeapProp (bubbleDown fuel heap i) := by
  intro fuel
  induction fuel with
  | zero =>
    intro heap i hn hok
    show HeapProp heap
    intro c hc hclen
    by_cases hpar : (c - 1) / 2 = i
    · omega
    · exact hok.1 c hc hclen hpar
  | succ n ih =>
    intro heap i hn hok
    rw [bubbleDown]
    split
    · rename_i heq
      intro c hc hclen
      by_cases hpar : (c - 1) / 2 = i
      · have hg2 : ¬(2 * i + 2 < heap.length ∧
            (hget heap (2 * i + 2)).frequency <
              (hget heap (s1of heap i)).frequency) := by
          intro hg
          have h := heq
          rw [smallestOf, if_pos hg] at h
          omega
        have hs1 : s1of heap i = i := by
          have h := heq
          rwa [smallestOf, if_neg hg2] at h
        have hg1 : ¬(2 * i + 1 < heap.length ∧
            (hget heap (2 * i + 1)).frequency <
              (hget heap i).frequency) := by
          intro hg
          have h := hs1
          rw [s1of, if_pos hg] at h
          omega
        rw [hs1] at hg2
        rw [hpar]
        rw [not_and] at hg1 hg2
        rcases (by omega : c = 2 * i + 1 ∨ c = 2 * i + 2) with he | he
        · have h3 := hg1 (he ▸ hclen)
          rw [he]
          omega
        · have h3 := hg2 (he ▸ hclen)
          rw [he]
          omega
      · exact hok.1 c hc hclen hpar
    · rename_i hne
      have hb := smallestOf_bounds heap i hne
      have hf := smallestOf_facts heap i hne
      have hsi : i ≠ smallestOf heap i := by omega
      have e1 : hget (swapAt heap i (smallestOf heap i)) i =
          hget heap (smallestOf heap i) :=
        hget_swapAt_snd heap i _ (by omega) hsi
      have e2 : hget (swapAt heap i (smallestOf heap i))
          (smallestOf heap i) = hget heap i :=
        hget_swapAt_fst heap i _ (by omega) hb.2
      have e3 : ∀ x, x ≠ i → x ≠ smallestOf heap i →
          hget (swapAt heap i (smallestOf heap i)) x = hget heap x :=
        fun x hxi hxs => hget_swapAt_other heap i _ x hxi hxs
      have hsparent : (smallestOf heap i - 1) / 2 = i := by
        rcases hf.1 with hs | hs <;> omega
      refine ih (swapAt heap i (smallestOf heap i)) (smallestOf heap i)
        (by rw [swapAt_length]; omega) ⟨?_, ?_⟩
      · intro c hc hclen' hpar
        rw [swapAt_length] at hclen'
        by_cases hci : c = i
        · subst hci
          have hg1 : (c - 1) / 2 ≠ c := by omega
          have hg2 : (c - 1) / 2 ≠ smallestOf heap c := by omega
          rw [e3 _ hg1 hg2, e1]
          exact hok.2 (smallestOf heap c) hb.2 hsparent hc
        · by_cases hcs : c = smallestOf heap i
          · subst hcs
            rw [hsparent, e1, e2]
            omega
          · by_cases hpari : (c - 1) / 2 = i
            · rw [e3 c hci hcs, hpari, e1]
              rcases (by omega : c = 2 * i + 1 ∨ c = 2 * i + 2) with he | he
              · exact he ▸ hf.2.2.1 (he ▸ hclen')
              · exact he ▸ hf.2.2.2 (he ▸ hclen')
            · rw [e3 c hci hcs, e3 _ hpari hpar]
              exact hok.1 c hc hclen' hpari
      · intro c hclen' hparc hspos
        rw [swapAt_length] at hclen'
        rw [hsparent, e1]
        have hcs : c ≠ smallestOf heap i := by omega
        have hci : c ≠ i := by omega
        rw [e3 c hci hcs]
        have hc0 : 0 < c := by omega
        have h := hok.1 c hc0 hclen' (by omega)
        rw [hparc] at h
        exact h

theorem extractMin_IsHeap (heap : List HuffmanNode) (hh : IsHeap heap) :
    IsHeap (MinHeap.extractMin heap).2 := by
  rw [MinHeap.extractMin]
  split
  · exact hh
  · split
    · intro i hi
      simp at hi
    · rename_i hlen0 hlen1
      rw [← heapProp_iff_isHeap]
      refine bubbleDown_DownOK
        (((heap.dropLast).set 0 (hget heap (heap.length - 1))).length)
        ((heap.dropLast).set 0 (hget heap (heap.length - 1))) 0
        (by omega) ⟨?_, ?_⟩
      · intro c hc hclen hpar
        have hlen' : ((heap.dropLast).set 0
            (hget heap (heap.length - 1))).length = heap.length - 1 := by
          simp
        rw [hlen'] at hclen
        have hval : ∀ x, 0 < x → x < heap.length - 1 →
            hget ((heap.dropLast).set 0 (hget heap (heap.length - 1))) x =
              hget heap x := by
          intro x hx0 hxlen
          rw [hget_set_ne _ 0 x _ (by omega), hget_dropLast _ _ hxlen]
        rw [hval c hc hclen, hval ((c - 1) / 2) (by omega) (by omega)]
        exact ((heapProp_iff_isHeap heap).mpr hh) c hc (by omega)
      · intro c hclen hparc hpos
        omega

theorem extractMin_min (heap : List HuffmanNode) (hh : IsHeap heap) :
    ∀ u ∈ heap, (hget heap 0).frequency ≤ u.frequency := by
  intro u hu
  rcases List.mem_iff_getElem.mp hu with ⟨j, hj, rfl⟩
  rw [← hget_eq_getElem heap j hj]
  exact isHeap_root_min heap hh j hj

end HeapOrder

/-! ## Frequency map lemmas -/

theorem bumpFreq_keys_mem (m : List (Char × Nat)) (c x : Char) :
    x ∈ (bumpFreq m c).map Prod.fst ↔ x ∈ m.map Prod.fst ∨ x = c := by
  induction m with
  | nil => simp [bumpFreq]
  | cons kv rest ih =>
    obtain ⟨k, v⟩ := kv
    by_cases hkc : k = c
    · subst hkc
      simp [bumpFreq]
      tauto
    · simp [bumpFreq, hkc, ih]
      tauto

theorem bumpFreq_keys_nodup (m : List (Char × Nat)) (c : Char)
    (h : (m.map Prod.fst).Nodup) : ((bumpFreq m c).map Prod.fst).Nodup := by
  induction m with
  | nil => simp [bumpFreq]
  | cons kv rest ih =>
    obtain ⟨k, v⟩ := kv
    simp only [List.map_cons, List.nodup_cons] at h
    by_cases hkc : k = c
    · subst hkc
      simpa [bumpFreq] using h
    · simp only [bumpFreq, if_neg hkc, List.map_cons, List.nodup_cons]
      refine ⟨fun hmem => ?_, ih h.2⟩
      rw [bumpFreq_keys_mem] at hmem
      rcases hmem with hmem | hmem
      · exact h.1 hmem
      · exact hkc hmem

theorem bumpFreq_sum (m : List (Char × Nat)) (c : Char) :
    ((bumpFreq m c).map Prod.snd).sum = (m.map Prod.snd).sum + 1 := by
  induction m with
  | nil => simp [bumpFreq]
  | cons kv rest ih =>
    obtain ⟨k, v⟩ := kv
    by_cases hkc : k = c
    · subst hkc
      simp [bumpFreq]
      omega
    · simp [bumpFreq, hkc, ih]
      omega

theorem foldl_bumpFreq_keys_mem (data : List Char) (m : List (Char × Nat))
    (x : Char) :
    x ∈ ((data.foldl bumpFreq m).map Prod.fst) ↔
      x ∈ m.map Prod.fst ∨ x ∈ data := by
  induction data generalizing m with
  | nil => simp
  | cons c rest ih =>
    rw [List.foldl_cons, ih, bumpFreq_keys_mem]
    simp
    tauto

theorem foldl_bumpFreq_nodup (data : List Char) (m : List (Char × Nat))
    (h : (m.map Prod.fst).Nodup) :
    ((data.foldl bumpFreq m).map Prod.fst).Nodup := by
  induction data generalizing m with
  | nil => exact h
  | cons c rest ih => exact ih _ (bumpFreq_keys_nodup m c h)

theorem foldl_bumpFreq_sum (data : List Char) (m : List (Char × Nat)) :
    (((data.foldl bumpFreq m).map Prod.snd).sum) =
      (m.map Prod.snd).sum + data.length := by
  induction data generalizing m with
  | nil => simp
  | cons c rest ih =>
    rw [List.foldl_cons, ih, bumpFreq_sum]
    simp
    omega

theorem buildFrequencyMap_keys_mem (data : List Char) (x : Char) :
    x ∈ (buildFrequencyMap data).map Prod.fst ↔ x ∈ data := by
  rw [buildFrequencyMap, foldl_bumpFreq_keys_mem]
  simp

theorem buildFrequencyMap_nodup (data : List Char) :
    ((buildFrequencyMap data).map Prod.fst).Nodup :=
  foldl_bumpFreq_nodup data [] (by simp)

theorem buildFrequencyMap_sum (data : List Char) :
    ((buildFrequencyMap data).map Prod.snd).sum = data.length := by
  rw [buildFrequencyMap, foldl_bumpFreq_sum]
  simp

theorem buildFrequencyMap_nil_iff (data : List Char) :
    buildFrequencyMap data = [] ↔ data = [] := by
  constructor
  · intro h
    cases data with
    | nil => rfl
    | cons c rest =>
      have := (buildFrequencyMap_keys_mem (c :: rest) c).mpr (by simp)
      rw [h] at this
      simp at this
  · intro h
    subst h
    rfl

/-! ## Builder invariants -/

section Builder

open MinHeap

theorem heapEntries_nil : heapEntries [] = 0 := rfl

theorem heapEntries_cons (t : HuffmanNode) (h : List HuffmanNode) :
    heapEntries (t :: h) = leafEntries t + heapEntries h := rfl

theorem heapEntries_eq_sum (h : List HuffmanNode) :
    heapEntries h = ((h.map leafEntries : List (Multiset (Char × Nat))) :
      Multiset (Multiset (Char × Nat))).sum := by
  induction h with
  | nil => simp [heapEntries]
  | cons t rest ih =>
    rw [heapEntries_cons, ih]
    simp

theorem heapEntries_of_perm (h₁ h₂ : List HuffmanNode)
    (hp : List.Perm h₁ h₂) : heapEntries h₁ = heapEntries h₂ := by
  rw [heapEntries_eq_sum, heapEntries_eq_sum]
  congr 1
  exact Multiset.coe_eq_coe.mpr (hp.map leafEntries)

theorem heapEntries_insert (h : List HuffmanNode) (t : HuffmanNode) :
    heapEntries (MinHeap.insert h t) = leafEntries t + heapEntries h := by
  rw [heapEntries_of_perm _ _ (insert_perm h t), heapEntries_cons]

theorem buildLoop_singleton (fuel : Nat) (x : HuffmanNode) :
    buildLoop fuel [x] = [x] := by
  cases fuel with
  | zero => rfl
  | succ n =>
    rw [buildLoop, if_neg (by simp)]

theorem insert_nil (t : HuffmanNode) : MinHeap.insert [] t = [t] := rfl

theorem buildLoop_spec : ∀ (fuel : Nat) (heap : List HuffmanNode),
    heap.length ≤ fuel → heap ≠ [] →
    ∃ t, buildLoop fuel heap = [t] ∧
      leafEntries t = heapEntries heap ∧
      ((∀ u ∈ heap, wfWeights u) → wfWeights t) ∧
      (2 ≤ heap.length → t.isLeaf = false) := by
  intro fuel
  induction fuel with
  | zero =>
    intro heap hfl hne
    exact absurd (List.length_eq_zero.mp (by omega)) hne
  | succ n ih =>
    intro heap hfl hne
    by_cases hlen : 1 < heap.length
    · obtain ⟨h₁, heq1, hlen1, hperm1⟩ := extractMin_spec heap hne
      have hne1 : h₁ ≠ [] := by
        intro hcon
        rw [hcon] at hlen1
        simp at hlen1
        omega
      obtain ⟨h₂, heq2, hlen2, hperm2⟩ := extractMin_spec h₁ hne1
      have hstep : buildLoop (n + 1) heap =
          buildLoop n (MinHeap.insert h₂
            (HuffmanNode.internal
              ((hget heap 0).frequency + (hget h₁ 0).frequency)
              (hget heap 0) (hget h₁ 0))) := by
        rw [buildLoop, if_pos hlen]
        simp only [heq1, heq2]
      have hlen3 : (MinHeap.insert h₂
          (HuffmanNode.internal
            ((hget heap 0).frequency + (hget h₁ 0).frequency)
            (hget heap 0) (hget h₁ 0))).length = heap.length - 1 := by
        rw [insert_length]
        omega
      obtain ⟨t, ht, hent, hwf, hleaf⟩ := ih (MinHeap.insert h₂
          (HuffmanNode.internal
            ((hget heap 0).frequency + (hget h₁ 0).frequency)
            (hget heap 0) (hget h₁ 0))) (by omega)
        (by
          intro hcon
          rw [hcon] at hlen3
          simp at hlen3
          omega)
      refine ⟨t, hstep.trans ht, ?_, ?_, fun _ => ?_⟩
      · rw [hent, heapEntries_insert,
          heapEntries_of_perm _ _ hperm1, heapEntries_cons,
          heapEntries_of_perm _ _ hperm2, heapEntries_cons]
        show leafEntries (hget heap 0) + leafEntries (hget h₁ 0) +
          heapEntries h₂ = leafEntries (hget heap 0) +
            (leafEntries (hget h₁ 0) + heapEntries h₂)
        rw [add_assoc]
      · intro hwfheap
        apply hwf
        intro u hu
        have hu' := ((insert_perm h₂ _).mem_iff).mp hu
        have hmem1 : hget heap 0 ∈ heap := hperm1.symm.subset (by simp)
        have hmemsub : ∀ v, v ∈ h₁ → v ∈ heap := by
          intro v hv
          exact hperm1.symm.subset (by simp [hv])
        have hmem2 : hget h₁ 0 ∈ heap :=
          hmemsub _ (hperm2.symm.subset (by simp))
        rcases List.mem_cons.mp hu' with hu' | hu'
        · subst hu'
          exact ⟨rfl, hwfheap _ hmem1, hwfheap _ hmem2⟩
        · exact hwfheap u (hmemsub _ (hperm2.symm.subset (by simp [hu'])))
      · by_cases h3 : 3 ≤ heap.length
        · exact hleaf (by omega)
        · have hlen2' : h₂.length = 0 := by omega
          have h₂nil : h₂ = [] := List.length_eq_zero.mp hlen2'
          subst h₂nil
          rw [insert_nil, buildLoop_singleton] at ht
          have : t = HuffmanNode.internal
              ((hget heap 0).frequency + (hget h₁ 0).frequency)
              (hget heap 0) (hget h₁ 0) := by
            cases ht
            rfl
          rw [this]
          rfl
    · have hlen1 : heap.length = 1 := by
        have := List.length_pos.mpr hne
        omega
      obtain ⟨x, hx⟩ := List.length_eq_one.mp hlen1
      subst hx
      refine ⟨x, buildLoop_singleton _ x, by simp [heapEntries], ?_, ?_⟩
      · intro hwf
        exact hwf x (by simp)
      · intro h2
        simp at h2

theorem initialHeap_entries (freqs : List (Char × Nat)) :
    ∀ (h : List HuffmanNode),
    heapEntries (freqs.foldl
      (fun hh cf => MinHeap.insert hh (HuffmanNode.leaf cf.1 cf.2)) h) =
      heapEntries h + (freqs : Multiset (Char × Nat)) := by
  induction freqs with
  | nil => simp
  | cons cf rest ih =>
    intro h
    rw [List.foldl_cons, ih, heapEntries_insert,
      ← Multiset.cons_coe, ← Multiset.singleton_add]
    have hleaf : leafEntries (HuffmanNode.leaf cf.1 cf.2) = {cf} := rfl
    rw [hleaf]
    abel

end Builder

/-! ## Tree builder specification -/

section BuilderSpec

open MinHeap

theorem initialHeap_length (freqs : List (Char × Nat)) :
    ∀ (h : List HuffmanNode),
    (freqs.foldl
      (fun hh cf => MinHeap.insert hh (HuffmanNode.leaf cf.1 cf.2)) h).length =
      h.length + freqs.length := by
  induction freqs with
  | nil => intro h; simp
  | cons cf rest ih =>
    intro h
    rw [List.foldl_cons, ih, insert_length]
    simp
    omega

theorem initialHeap_wf (freqs : List (Char × Nat)) :
    ∀ (h : List HuffmanNode), (∀ u ∈ h, wfWeights u) →
    ∀ u ∈ freqs.foldl
      (fun hh cf => MinHeap.insert hh (HuffmanNode.leaf cf.1 cf.2)) h,
      wfWeights u := by
  induction freqs with
  | nil => intro h hu; exact hu
  | cons cf rest ih =>
    intro h hu
    refine ih _ ?_
    intro u hmem
    rcases List.mem_cons.mp ((insert_perm h _).mem_iff.mp hmem) with hh | hh
    · subst hh
      trivial
    · exact hu u hh

theorem buildHuffmanTree_spec (freqs : List (Char × Nat)) (hne : freqs ≠ []) :
    ∃ t, buildHuffmanTree freqs = some t ∧
      leafEntries t = (freqs : Multiset (Char × Nat)) ∧ wfWeights t ∧
      (2 ≤ freqs.length → t.isLeaf = false) := by
  have hlen0 : (freqs.foldl
      (fun hh cf => MinHeap.insert hh (HuffmanNode.leaf cf.1 cf.2))
      []).length = freqs.length := by
    rw [initialHeap_length]
    simp
  have hne0 : freqs.foldl
      (fun hh cf => MinHeap.insert hh (HuffmanNode.leaf cf.1 cf.2)) [] ≠
      [] := by
    intro hcon
    rw [hcon] at hlen0
    exact hne (List.length_eq_zero.mp hlen0.symm)
  obtain ⟨t, ht, hent, hwf, hleaf⟩ :=
    buildLoop_spec _ _ (Nat.le_refl _) hne0
  refine ⟨t, ?_, ?_, ?_, ?_⟩
  · simp only [buildHuffmanTree]
    rw [ht]
    rfl
  · rw [hent, initialHeap_entries]
    simp [heapEntries]
  · exact hwf (initialHeap_wf freqs [] (by simp))
  · intro h2
    exact hleaf (by omega)

end BuilderSpec

/-! ## Tree measures -/

theorem leafCount_eq_card (t : HuffmanNode) :
    leafCount t = Multiset.card (leafEntries t) := by
  induction t with
  | leaf c f => simp [leafCount, leafEntries]
  | internal f l r ihl ihr => simp [leafCount, leafEntries, ihl, ihr]

theorem internalCount_succ (t : HuffmanNode) :
    internalCount t + 1 = leafCount t := by
  induction t with
  | leaf c f => simp [internalCount, leafCount]
  | internal f l r ihl ihr =>
    simp only [internalCount, leafCount]
    omega

theorem leafWeightSum_eq (t : HuffmanNode) :
    leafWeightSum t = ((leafEntries t).map Prod.snd).sum := by
  induction t with
  | leaf c f => simp [leafWeightSum, leafEntries]
  | internal f l r ihl ihr => simp [leafWeightSum, leafEntries, ihl, ihr]

/-! ## Code table and path lemmas -/

theorem generateCodes_keys (t : HuffmanNode) :
    ∀ p, (generateCodes t p).map Prod.fst = leafCharsList t := by
  induction t with
  | leaf c f => intro p; simp [generateCodes, leafCharsList]
  | internal f l r ihl ihr =>
    intro p
    simp [generateCodes, leafCharsList, ihl, ihr]

theorem leafCharsList_coe (t : HuffmanNode) :
    (leafCharsList t : Multiset Char) = (leafEntries t).map Prod.fst := by
  induction t with
  | leaf c f => simp [leafCharsList, leafEntries]
  | internal f l r ihl ihr =>
    simp only [leafCharsList, leafEntries, Multiset.map_add, ← ihl, ← ihr]
    rw [← Multiset.coe_add]

theorem mem_generateCodes : ∀ (t : HuffmanNode), t.isLeaf = false →
    ∀ (p : List Char) (c : Char) (w : List Char),
    (c, w) ∈ generateCodes t p →
    ∃ w', w = p ++ w' ∧ w' ≠ [] ∧ pathTo t w' = some c := by
  intro t
  induction t with
  | leaf c f => intro h; simp [HuffmanNode.isLeaf] at h
  | internal f l r ihl ihr =>
    intro _ p c w hmem
    rw [generateCodes] at hmem
    rcases List.mem_append.mp hmem with hm | hm
    · cases l with
      | leaf c' f' =>
        have hemp : (p ++ ['0']).isEmpty = false := by simp
        simp only [generateCodes, hemp, Bool.false_eq_true, if_false,
          List.mem_singleton, Prod.mk.injEq] at hm
        refine ⟨['0'], by rw [hm.2], by simp, ?_⟩
        rw [pathTo, if_pos rfl, pathTo, hm.1]
      | internal f₂ l₂ r₂ =>
        obtain ⟨w₁, hw, hwne, hpath⟩ := ihl rfl (p ++ ['0']) c w hm
        refine ⟨'0' :: w₁, by rw [hw]; simp, by simp, ?_⟩
        rw [pathTo, if_pos rfl]
        exact hpath
    · cases r with
      | leaf c' f' =>
        have hemp : (p ++ ['1']).isEmpty = false := by simp
        simp only [generateCodes, hemp, Bool.false_eq_true, if_false,
          List.mem_singleton, Prod.mk.injEq] at hm
        refine ⟨['1'], by rw [hm.2], by simp, ?_⟩
        rw [pathTo, if_neg (by decide), pathTo, hm.1]
      | internal f₂ l₂ r₂ =>
        obtain ⟨w₁, hw, hwne, hpath⟩ := ihr rfl (p ++ ['1']) c w hm
        refine ⟨'1' :: w₁, by rw [hw]; simp, by simp, ?_⟩
        rw [pathTo, if_neg (by decide)]
        exact hpath

theorem pathTo_append : ∀ (w : List Char) (t : HuffmanNode) (c c' : Char)
    (z : List Char),
    pathTo t w = some c → pathTo t (w ++ z) = some c' →
    z = [] ∧ c' = c := by
  intro w
  induction w with
  | nil =>
    intro t c c' z h1 h2
    cases t with
    | leaf c0 f =>
      rw [pathTo] at h1
      rw [List.nil_append] at h2
      cases z with
      | nil =>
        rw [pathTo] at h2
        exact ⟨rfl, by
          injection h1 with h1
          injection h2 with h2
          rw [← h1, ← h2]⟩
      | cons b bs => simp [pathTo] at h2
    | internal f l r => simp [pathTo] at h1
  | cons b bs ih =>
    intro t c c' z h1 h2
    cases t with
    | leaf c0 f => simp [pathTo] at h1
    | internal f l r =>
      rw [pathTo] at h1
      rw [List.cons_append, pathTo] at h2
      exact ih _ c c' z h1 h2

/-! ## Decoder lemmas -/

theorem decode_step : ∀ (w : List Char) (t : HuffmanNode) (c : Char),
    pathTo t w = some c → w ≠ [] →
    ∀ (root : HuffmanNode) (rest : List Char),
      decodeAux root (w ++ rest) t =
        (decodeAux root rest root).map (fun d => c :: d) := by
  intro w
  induction w with
  | nil => intro t c h hne; exact absurd rfl hne
  | cons b bs ih =>
    intro t c hpath hne root rest
    cases t with
    | leaf c0 f => simp [pathTo] at hpath
    | internal f l r =>
      rw [pathTo] at hpath
      rw [List.cons_append, decodeAux]
      by_cases hb : b = '0'
      · rw [if_pos hb] at hpath
        simp only [if_pos hb, HuffmanNode.leftChild]
        cases bs with
        | nil =>
          cases l with
          | leaf c1 f1 =>
            rw [pathTo] at hpath
            injection hpath with hpath
            simp only [HuffmanNode.isLeaf, if_true, List.nil_append]
            rw [hpath]
            rfl
          | internal f1 l1 r1 => simp [pathTo] at hpath
        | cons b2 bs2 =>
          cases l with
          | leaf c1 f1 => simp [pathTo] at hpath
          | internal f1 l1 r1 =>
            simp only [HuffmanNode.isLeaf, Bool.false_eq_true, if_false]
            exact ih _ c hpath (by simp) root rest
      · rw [if_neg hb] at hpath
        simp only [if_neg hb, HuffmanNode.rightChild]
        cases bs with
        | nil =>
          cases r with
          | leaf c1 f1 =>
            rw [pathTo] at hpath
            injection hpath with hpath
            simp only [HuffmanNode.isLeaf, if_true, List.nil_append]
            rw [hpath]
            rfl
          | internal f1 l1 r1 => simp [pathTo] at hpath
        | cons b2 bs2 =>
          cases r with
          | leaf c1 f1 => simp [pathTo] at hpath
          | internal f1 l1 r1 =>
            simp only [HuffmanNode.isLeaf, Bool.false_eq_true, if_false]
            exact ih _ c hpath (by simp) root rest

theorem decodeAux_none_iff (root : HuffmanNode) :
    ∀ (bits : List Char) (cur : HuffmanNode),
    decodeAux root bits cur = none ↔
      hitsMissingChild root bits cur = true := by
  intro bits
  induction bits with
  | nil => intro cur; simp [decodeAux, hitsMissingChild]
  | cons b rest ih =>
    intro cur
    rw [decodeAux, hitsMissingChild]
    cases hstep : (if b = '0' then cur.leftChild else cur.rightChild) with
    | none => simp
    | some next =>
      by_cases hleaf : next.isLeaf
      · simp [hleaf, ih]
      · simp [hleaf, ih]

/-! ## Lookup and encoder lemmas -/

theorem lookup_some_mem : ∀ (l : List (Char × List Char)) (a : Char)
    (w : List Char), List.lookup a l = some w → (a, w) ∈ l := by
  intro l
  induction l with
  | nil => intro a w h; simp [List.lookup] at h
  | cons kv rest ih =>
    intro a w h
    obtain ⟨k, v⟩ := kv
    rw [List.lookup] at h
    cases hab : a == k with
    | true =>
      rw [hab] at h
      simp only [] at h
      injection h with h
      have hak : a = k := eq_of_beq hab
      subst hak
      rw [← h]
      simp
    | false =>
      rw [hab] at h
      simp only [] at h
      exact List.mem_cons.mpr (Or.inr (ih a w h))

theorem lookup_isSome_of_mem_keys : ∀ (l : List (Char × List Char))
    (a : Char), a ∈ l.map Prod.fst → ∃ w, List.lookup a l = some w := by
  intro l
  induction l with
  | nil => intro a h; simp at h
  | cons kv rest ih =>
    intro a h
    obtain ⟨k, v⟩ := kv
    rw [List.lookup]
    cases hab : a == k with
    | true => exact ⟨v, rfl⟩
    | false =>
      have hak : a ≠ k := by
        intro hcon
        subst hcon
        simp at hab
      simp only [List.map_cons, List.mem_cons] at h
      rcases h with h | h
      · exact absurd h hak
      · exact ih a h

theorem foldl_append_eq (f : Char → List Char) :
    ∀ (data : List Char) (init : List Char),
    data.foldl (fun acc c => acc ++ f c) init =
      init ++ (data.map f).flatten := by
  intro data
  induction data with
  | nil => intro init; simp
  | cons c rest ih =>
    intro init
    rw [List.foldl_cons, ih]
    simp

theorem encode_eq_flatten (codes : List (Char × List Char))
    (data : List Char) :
    encode codes data =
      (data.map
        (fun c => (List.lookup c codes).getD "undefined".toList)).flatten := by
  rw [encode, foldl_append_eq]
  simp

theorem encode_cons (codes : List (Char × List Char)) (c : Char)
    (ds : List Char) :
    encode codes (c :: ds) =
      (List.lookup c codes).getD "undefined".toList ++ encode codes ds := by
  rw [encode_eq_flatten, encode_eq_flatten, List.map_cons]
  rfl

theorem decode_encode (root : HuffmanNode) (codes : List (Char × List Char)) :
    ∀ (data : List Char),
    (∀ c ∈ data, ∃ w, List.lookup c codes = some w ∧ w ≠ [] ∧
      pathTo root w = some c) →
    decode root (encode codes data) = some data := by
  intro data
  induction data with
  | nil => intro _; rfl
  | cons c ds ih =>
    intro hcov
    obtain ⟨w, hw, hwne, hpath⟩ := hcov c (by simp)
    rw [decode, encode_cons, hw]
    show decodeAux root (w ++ encode codes ds) root = some (c :: ds)
    rw [decode_step w root c hpath hwne root (encode codes ds)]
    have hds : decodeAux root (encode codes ds) root =
        decode root (encode codes ds) := rfl
    rw [hds, ih (fun c' hc' => hcov c' (by simp [hc']))]
    rfl

/-! ## Compress unfolding -/

theorem compressResult_eq (data : List Char) (hne : data ≠ []) :
    compressResult data = some
      { original := data
        encoded := encode (generateCodesTop
          (buildHuffmanTree (buildFrequencyMap data))) data
        originalBits := data.length * 8
        compressedBits := (encode (generateCodesTop
          (buildHuffmanTree (buildFrequencyMap data))) data).length
        frequencies := buildFrequencyMap data
        codes := generateCodesTop (buildHuffmanTree (buildFrequencyMap data))
        tree := buildHuffmanTree (buildFrequencyMap data) } := by
  have hlen : ¬ data.length = 0 := by
    simp [List.length_eq_zero, hne]
  simp only [compressResult, compress, if_neg hlen]
  rfl

/-! ## Claim theorems -/

/-- C1 (amended): for every input with at least two distinct symbols,
decoding the bit string produced by `compress` against the tree produced
by that same call returns exactly the input.  (For a single distinct
symbol the claim fails: the single-leaf tree makes `decode` dereference
a `null` child — see the counterexample.) -/
theorem roundTrip_two_distinct (data : List Char)
    (h2 : 2 ≤ (buildFrequencyMap data).length) :
    roundTrip data = some data := by
  have hdne : data ≠ [] := by
    intro hcon
    subst hcon
    simp [buildFrequencyMap] at h2
  have hfne : buildFrequencyMap data ≠ [] := by
    intro hcon
    rw [hcon] at h2
    simp at h2
  obtain ⟨t, ht, hent, hwf, hleaf⟩ := buildHuffmanTree_spec _ hfne
  have hleafF := hleaf h2
  have hcov : ∀ c ∈ data, ∃ w,
      List.lookup c (generateCodes t []) = some w ∧ w ≠ [] ∧
      pathTo t w = some c := by
    intro c hc
    have hkey : c ∈ (buildFrequencyMap data).map Prod.fst :=
      (buildFrequencyMap_keys_mem data c).mpr hc
    have hchars : c ∈ leafCharsList t := by
      have h1 : c ∈ ((buildFrequencyMap data).map Prod.fst :
          Multiset Char) := Multiset.mem_coe.mpr hkey
      rw [← Multiset.map_coe, ← hent, ← leafCharsList_coe] at h1
      exact Multiset.mem_coe.mp h1
    have hkeys2 : c ∈ (generateCodes t []).map Prod.fst := by
      rw [generateCodes_keys]
      exact hchars
    obtain ⟨w, hw⟩ := lookup_isSome_of_mem_keys _ c hkeys2
    obtain ⟨w', hww, hwne, hpath⟩ :=
      mem_generateCodes t hleafF [] c w (lookup_some_mem _ c w hw)
    rw [List.nil_append] at hww
    subst hww
    exact ⟨w, hw, hwne, hpath⟩
  have hdec := decode_encode t (generateCodes t []) data hcov
  simp only [roundTrip, compressResult_eq data hdne, ht]
  exact hdec

/-- Witness for C1's theorem at the concrete input `"AB"`. -/
theorem roundTrip_two_distinct_witness :
    roundTrip "AB".toList = some "AB".toList :=
  roundTrip_two_distinct "AB".toList (by decide)

/-- C1 counterexample: on the single-symbol input `"A"` the round trip
does not return the input — `decode` crashes on the single-leaf tree
(modelled as `none`). -/
theorem roundTrip_single_symbol_counterexample :
    roundTrip "A".toList ≠ some "A".toList := by decide

/-- C2 (amended): `compress("AAAA")` produces the code table
`{A: "0"}`, encoded bit length 4, and the single-leaf tree — but
decoding the encoded bits against that tree crashes on a `null` child
(modelled `none`) instead of returning `"AAAA"`. -/
theorem compress_single_symbol_amended :
    (compressResult "AAAA".toList).map CompressResult.codes =
      some [('A', ['0'])] ∧
    (compressResult "AAAA".toList).map CompressResult.compressedBits =
      some 4 ∧
    (compressResult "AAAA".toList).map CompressResult.tree =
      some (some (HuffmanNode.leaf 'A' 4)) ∧
    roundTrip "AAAA".toList = none := by decide

/-- C2 counterexample: decoding `compress("AAAA")`'s own output against
its own tree does not return `"AAAA"`. -/
theorem single_symbol_decode_counterexample :
    roundTrip "AAAA".toList ≠ some "AAAA".toList := by decide

/-- C3 (amended): `decode` performs no error checking.  It fails (a JS
`TypeError` crash, modelled `none`) exactly when some consumed bit
requires a child that does not exist; when the bit string is merely
exhausted mid-traversal it silently returns the partial decoded
sequence — e.g. the one-bit stream `"1"` yields the empty sequence, and
the bit string one bit short of the 14-bit encoding of `"AABBBCCCC"`
yields `"AABBBCCC"`.  A missing-child step on the single-leaf tree
crashes rather than producing any failure value. -/
theorem decode_failure_modes :
    (∀ (root : HuffmanNode) (bits : List Char),
      decode root bits = none ↔ hitsMissingChild root bits root = true) ∧
    decode (HuffmanNode.internal 9 (HuffmanNode.leaf 'C' 4)
      (HuffmanNode.internal 5 (HuffmanNode.leaf 'A' 2)
        (HuffmanNode.leaf 'B' 3))) ['1'] = some [] ∧
    decode (HuffmanNode.internal 9 (HuffmanNode.leaf 'C' 4)
      (HuffmanNode.internal 5 (HuffmanNode.leaf 'A' 2)
        (HuffmanNode.leaf 'B' 3)))
      "1010111111000".toList = some "AABBBCCC".toList ∧
    decode (HuffmanNode.leaf 'A' 4) ['0'] = none :=
  ⟨fun root bits => decodeAux_none_iff root bits root,
    by decide, by decide, by decide⟩

/-- C3 counterexample: decoding the bit string one bit short of
completing the final symbol's path of `compress("AABBBCCCC")` returns a
successful partial result (`"AABBBCCC"`, the input minus its final
symbol) — not any failure value. -/
theorem decode_one_bit_short_counterexample :
    (compressResult "AABBBCCCC".toList).bind
      (fun r => r.tree.bind (fun t => decode t r.encoded.dropLast)) =
      some "AABBBCCC".toList ∧
    "AABBBCCC".toList ≠ "AABBBCCCC".toList := by decide

/-- C4 (amended): `encode` never fails.  Each symbol contributes its
looked-up code, or — when the table has no entry — the JS coercion of
`undefined`, the literal text `"undefined"`; the output is always the
concatenation of those contributions in input order. -/
theorem encode_concatenation (codes : List (Char × List Char))
    (data : List Char) :
    encode codes data =
      (data.map
        (fun c => (List.lookup c codes).getD "undefined".toList)).flatten :=
  encode_eq_flatten codes data

/-- C4 counterexample: with table `{A: "0"}`, encoding the sequence
`"B"` does not fail — it returns the text `"undefined"` spliced into
the bit string. -/
theorem encode_unknown_symbol_counterexample :
    encode [('A', ['0'])] ['B'] = "undefined".toList ∧
    encode [('A', ['0'])] ['B'] ≠ [] := by decide

/-- C5: `compress` on a zero-length sequence returns the explicit
failure value `{success: false, error: 'No data to compress'}` — the
state is untouched and the failure carries no tree, code table, or
encoded output. -/
theorem compress_empty_input (st : HuffmanCoding) :
    compress st [] = (st, Except.error "No data to compress") := rfl

/-- C6: the code table generated by a successful `compress` is
prefix-free — for distinct symbols, neither's code is a prefix of the
other's. -/
theorem compress_prefix_free (data : List Char) (r : CompressResult)
    (hr : compressResult data = some r)
    (c₁ : Char) (w₁ : List Char) (c₂ : Char) (w₂ : List Char)
    (h₁ : (c₁, w₁) ∈ r.codes) (h₂ : (c₂, w₂) ∈ r.codes) (hcc : c₁ ≠ c₂) :
    ¬ ∃ z, w₂ = w₁ ++ z := by
  rintro ⟨z, hz⟩
  have hdne : data ≠ [] := by
    intro hcon
    subst hcon
    simp [compressResult, compress, Except.toOption] at hr
  rw [compressResult_eq data hdne] at hr
  injection hr with hr
  subst hr
  have hfne : buildFrequencyMap data ≠ [] := by
    intro hcon
    exact hdne ((buildFrequencyMap_nil_iff data).mp hcon)
  obtain ⟨t, ht, hent, hwf, hleaf⟩ := buildHuffmanTree_spec _ hfne
  have h₁' : (c₁, w₁) ∈ generateCodesTop
      (buildHuffmanTree (buildFrequencyMap data)) := h₁
  have h₂' : (c₂, w₂) ∈ generateCodesTop
      (buildHuffmanTree (buildFrequencyMap data)) := h₂
  rw [ht] at h₁' h₂'
  have h₁g : (c₁, w₁) ∈ generateCodes t [] := h₁'
  have h₂g : (c₂, w₂) ∈ generateCodes t [] := h₂'
  cases t with
  | leaf c0 f0 =>
    have e1 : generateCodes (HuffmanNode.leaf c0 f0) [] = [(c0, ['0'])] :=
      rfl
    rw [e1, List.mem_singleton, Prod.mk.injEq] at h₁g h₂g
    exact hcc (h₁g.1.trans h₂g.1.symm)
  | internal f0 l0 r0 =>
    have hlf : (HuffmanNode.internal f0 l0 r0).isLeaf = false := rfl
    obtain ⟨w₁', he₁, hne₁, hp₁⟩ := mem_generateCodes _ hlf [] c₁ w₁ h₁g
    obtain ⟨w₂', he₂, hne₂, hp₂⟩ := mem_generateCodes _ hlf [] c₂ w₂ h₂g
    rw [List.nil_append] at he₁ he₂
    subst he₁
    subst he₂
    obtain ⟨hzn, hcc'⟩ := pathTo_append w₁ _ c₁ c₂ z hp₁ (hz ▸ hp₂)
    exact hcc hcc'.symm

/-- Witness for C6's theorem on `compress("AB")`: `B`'s code `"1"` is
not an extension of `A`'s code `"0"`. -/
theorem compress_prefix_free_witness :
    ¬ ∃ z, (['1'] : List Char) = ['0'] ++ z :=
  compress_prefix_free "AB".toList
    { original := "AB".toList, encoded := ['0', '1'], originalBits := 16,
      compressedBits := 2, frequencies := [('A', 1), ('B', 1)],
      codes := [('A', ['0']), ('B', ['1'])],
      tree := some (HuffmanNode.internal 2 (HuffmanNode.leaf 'A' 1)
        (HuffmanNode.leaf 'B' 1)) }
    (by decide) 'A' ['0'] 'B' ['1'] (by decide) (by decide) (by decide)

/-- C7: for an input with `n ≥ 2` distinct symbols, the tree built by
`compress` has exactly `n` leaves and `n − 1` internal nodes, every
internal node carries the sum of its two children's weights (each
internal node owns exactly two children by construction of the node
type), and the leaf weights sum to the input length. -/
theorem compress_tree_structural (data : List Char) (r : CompressResult)
    (t : HuffmanNode) (hr : compressResult data = some r)
    (ht : r.tree = some t) (h2 : 2 ≤ r.frequencies.length) :
    leafCount t = r.frequencies.length ∧
    internalCount t = r.frequencies.length - 1 ∧
    wfWeights t ∧
    leafWeightSum t = data.length := by
  have hdne : data ≠ [] := by
    intro hcon
    subst hcon
    simp [compressResult, compress, Except.toOption] at hr
  rw [compressResult_eq data hdne] at hr
  injection hr with hr
  subst hr
  have hfne : buildFrequencyMap data ≠ [] := by
    intro hcon
    exact hdne ((buildFrequencyMap_nil_iff data).mp hcon)
  obtain ⟨t', ht', hent, hwf, hleaf⟩ := buildHuffmanTree_spec _ hfne
  have htt : t' = t := by
    have hh : buildHuffmanTree (buildFrequencyMap data) = some t := ht
    rw [ht'] at hh
    injection hh with hh
  subst htt
  have hlc : leafCount t' = (buildFrequencyMap data).length := by
    rw [leafCount_eq_card, hent]
    simp
  refine ⟨hlc, ?_, hwf, ?_⟩
  · have hic := internalCount_succ t'
    show internalCount t' = (buildFrequencyMap data).length - 1
    omega
  · rw [leafWeightSum_eq, hent, Multiset.map_coe, Multiset.sum_coe]
    exact buildFrequencyMap_sum data

/-- Witness for C7's theorem on `compress("AB")`. -/
theorem compress_tree_structural_witness :
    leafCount (HuffmanNode.internal 2 (HuffmanNode.leaf 'A' 1)
      (HuffmanNode.leaf 'B' 1)) = 2 ∧
    internalCount (HuffmanNode.internal 2 (HuffmanNode.leaf 'A' 1)
      (HuffmanNode.leaf 'B' 1)) = 1 ∧
    wfWeights (HuffmanNode.internal 2 (HuffmanNode.leaf 'A' 1)
      (HuffmanNode.leaf 'B' 1)) ∧
    leafWeightSum (HuffmanNode.internal 2 (HuffmanNode.leaf 'A' 1)
      (HuffmanNode.leaf 'B' 1)) = 2 :=
  compress_tree_structural "AB".toList
    { original := "AB".toList, encoded := ['0', '1'], originalBits := 16,
      compressedBits := 2, frequencies := [('A', 1), ('B', 1)],
      codes := [('A', ['0']), ('B', ['1'])],
      tree := some (HuffmanNode.internal 2 (HuffmanNode.leaf 'A' 1)
        (HuffmanNode.leaf 'B' 1)) }
    (HuffmanNode.internal 2 (HuffmanNode.leaf 'A' 1)
      (HuffmanNode.leaf 'B' 1))
    (by decide) (by decide) (by decide)

/-- C8: on `"AABBBCCCC"` (frequencies A:2, B:3, C:4) the code of the
most frequent symbol `C` has length 1, no longer than `A`'s and `B`'s
length-2 codes; the encoded bit length is 14, less than the 72-bit
fixed-width baseline. -/
theorem compress_frequency_ordering :
    (compressResult "AABBBCCCC".toList).map
      (fun r => (List.lookup 'C' r.codes).map List.length) =
        some (some 1) ∧
    (compressResult "AABBBCCCC".toList).map
      (fun r => (List.lookup 'A' r.codes).map List.length) =
        some (some 2) ∧
    (compressResult "AABBBCCCC".toList).map
      (fun r => (List.lookup 'B' r.codes).map List.length) =
        some (some 2) ∧
    (compressResult "AABBBCCCC".toList).map CompressResult.compressedBits =
      some 14 ∧
    (compressResult "AABBBCCCC".toList).map CompressResult.originalBits =
      some 72 ∧
    (1 : Nat) ≤ 2 ∧ (14 : Nat) < 72 := by decide

/-- C9: the result a `compress` call returns is a pure value of its
input alone — it does not depend on any state left behind by earlier
calls (each call rebuilds its frequency map, tree and code table from
scratch), and a previously returned result is itself unchanged by later
calls. -/
theorem compress_cross_call_isolation (s₀ : HuffmanCoding)
    (d₁ d₂ : List Char) (s₁ s₂ : HuffmanCoding)
    (r₁ r₂ : Except String CompressResult)
    (hc₁ : compress s₀ d₁ = (s₁, r₁)) (hc₂ : compress s₁ d₂ = (s₂, r₂)) :
    r₁ = (compress s₀ d₁).2 ∧ ∀ s', (compress s' d₂).2 = r₂ := by
  constructor
  · rw [hc₁]
  · intro s'
    have h : (compress s₁ d₂).2 = r₂ := by rw [hc₂]
    rw [← h]
    by_cases hd : d₂.length = 0
    · simp [compress, hd]
    · simp [compress, hd]

/-- Witness for C9's theorem: two successive calls on a fresh state,
with `"A"` then `"B"`. -/
theorem compress_cross_call_isolation_witness :
    (compress HuffmanCoding.init "A".toList).2 =
      (compress HuffmanCoding.init "A".toList).2 ∧
    (compress HuffmanCoding.init
      "B".toList).2 =
      (compress (compress HuffmanCoding.init "A".toList).1 "B".toList).2 := by
  have h := compress_cross_call_isolation HuffmanCoding.init
    "A".toList "B".toList
    (compress HuffmanCoding.init "A".toList).1
    (compress (compress HuffmanCoding.init "A".toList).1 "B".toList).1
    (compress HuffmanCoding.init "A".toList).2
    (compress (compress HuffmanCoding.init "A".toList).1 "B".toList).2
    rfl rfl
  exact ⟨h.1.symm ▸ rfl, h.2 HuffmanCoding.init⟩

/-- C10: the `MinHeap` maintains the heap order (`IsHeap`, each
element `≤` its children at `2i+1` and `2i+2`) under `insert` and
`extractMin` from the empty heap on; `insert` adds exactly its argument
to the contents; `extractMin` on a non-empty well-ordered heap removes
and returns its root, an element of minimal frequency among the current
contents; `extractMin` on the empty heap returns `null`. -/
theorem minHeap_invariant :
    IsHeap [] ∧
    (∀ (heap : List HuffmanNode) (node : HuffmanNode), IsHeap heap →
      IsHeap (MinHeap.insert heap node)) ∧
    (∀ (heap : List HuffmanNode) (node : HuffmanNode),
      ((MinHeap.insert heap node : List HuffmanNode) :
        Multiset HuffmanNode) = node ::ₘ (heap : Multiset HuffmanNode)) ∧
    (∀ heap : List HuffmanNode, IsHeap heap →
      IsHeap (MinHeap.extractMin heap).2) ∧
    (∀ heap : List HuffmanNode, IsHeap heap → heap ≠ [] →
      ∃ h', MinHeap.extractMin heap = (some (MinHeap.hget heap 0), h') ∧
        MinHeap.hget heap 0 ∈ heap ∧
        (∀ u ∈ heap,
          (MinHeap.hget heap 0).frequency ≤ u.frequency) ∧
        (heap : Multiset HuffmanNode) =
          MinHeap.hget heap 0 ::ₘ (h' : Multiset HuffmanNode)) ∧
    MinHeap.extractMin [] = (none, []) := by
  refine ⟨by intro i hi; simp at hi,
    fun heap node hh => insert_IsHeap heap node hh,
    fun heap node =>
      (Multiset.coe_eq_coe.mpr (MinHeap.insert_perm heap node)).trans
        (Multiset.cons_coe node heap),
    fun heap hh => extractMin_IsHeap heap hh,
    fun heap hh hne => ?_,
    MinHeap.extractMin_empty⟩
  obtain ⟨h', heq, hlen, hperm⟩ := MinHeap.extractMin_spec heap hne
  exact ⟨h', heq, hperm.symm.subset (by simp),
    extractMin_min heap hh,
    (Multiset.coe_eq_coe.mpr hperm).trans (Multiset.cons_coe _ _)⟩

/-- Witness for C10's theorem at concrete heaps. -/
theorem minHeap_invariant_witness :
    IsHeap (MinHeap.insert [HuffmanNode.leaf 'a' 2]
      (HuffmanNode.leaf 'b' 1)) ∧
    (∃ h', MinHeap.extractMin
        [HuffmanNode.leaf 'a' 1, HuffmanNode.leaf 'b' 3] =
        (some (MinHeap.hget
          [HuffmanNode.leaf 'a' 1, HuffmanNode.leaf 'b' 3] 0), h') ∧
      MinHeap.hget [HuffmanNode.leaf 'a' 1, HuffmanNode.leaf 'b' 3] 0 ∈
        [HuffmanNode.leaf 'a' 1, HuffmanNode.leaf 'b' 3] ∧
      (∀ u ∈ [HuffmanNode.leaf 'a' 1, HuffmanNode.leaf 'b' 3],
        (MinHeap.hget
          [HuffmanNode.leaf 'a' 1, HuffmanNode.leaf 'b' 3] 0).frequency ≤
          u.frequency) ∧
      ([HuffmanNode.leaf 'a' 1, HuffmanNode.leaf 'b' 3] :
        Multiset HuffmanNode) =
        MinHeap.hget [HuffmanNode.leaf 'a' 1, HuffmanNode.leaf 'b' 3] 0 ::ₘ
          ((h' : List HuffmanNode) : Multiset HuffmanNode)) :=
  ⟨minHeap_invariant.2.1 [HuffmanNode.leaf 'a' 2] (HuffmanNode.leaf 'b' 1)
      (by decide),
    minHeap_invariant.2.2.2.2.1
      [HuffmanNode.leaf 'a' 1, HuffmanNode.leaf 'b' 3]
      (by decide) (by decide)⟩
